import Mathlib

/-!
# Verification of the Obsidian vault server core

A shallow embedding of `src/obsidian_mcp/__init__.py`.

Modelling conventions:
* A filesystem path is its list of components (`List String`).  The leading
  root component of an absolute POSIX path (`Path("/a/b").parts = ('/', 'a', 'b')`)
  is dropped: it never starts with a dot, is shared by the vault and every
  entry beneath it, and `str`-level prefix/substring checks are unaffected
  by both sides carrying the same leading "/".
* `str(path)` is modelled by `pathStr` (components joined by "/").
* `Path.resolve()` / OS-level `..`-walking is modelled by `normAbs`
  (no symbolic links: the vault is assumed symlink-free).
* The content store is an association list from resolved absolute component
  lists to file contents (`FS`).  `stat` metadata beyond what the claims need
  (mtime as a `Nat` standing for the ISO-8601 string, whose lexicographic
  order agrees with the timestamp order, and a byte size) lives in the scan
  model `MdFile`.
* `rglob` order is filesystem-dependent, so the scanning operations take the
  scan sequence (a `List MdFile` / `List (List String)`) as an explicit input
  in scan order.  The per-entry `try/except` skips (stat or read failures)
  are modelled by the `ioOk` flag of an entry.
* `str.lower()` is modelled ASCII-wise by `Char.toLower`; the claims below
  only exercise ASCII queries and caseless scripts.
-/

namespace ObsidianMcp

/-- `str(p)` for a path given by its components: components joined by "/". -/
def pathStr : List String → String
  | [] => ""
  | [s] => s
  | s :: s' :: rest => s ++ "/" ++ pathStr (s' :: rest)

/-- One step of `..`/`.` normalization, as the OS (and `Path.resolve`)
performs it on a symlink-free tree: `..` pops the last component (staying at
the root when there is none), `.` and empty components vanish. -/
def normStep (acc : List String) (seg : String) : List String :=
  if seg == ".." then acc.dropLast
  else if seg == "." || seg == "" then acc
  else acc ++ [seg]

/-- `Path.resolve()` on a symlink-free tree: normalize all components. -/
def normAbs (parts : List String) : List String :=
  parts.foldl normStep []

/-- Python `str.startswith`: the pattern is a character-list prefix. -/
def strStartsWith (s pre : String) : Bool :=
  pre.data.isPrefixOf s.data

/-- Python `str.endswith`: the pattern is a character-list suffix. -/
def strEndsWith (s post : String) : Bool :=
  post.data.isSuffixOf s.data

/-- Contiguous-sublist check on character lists (Python `pat in s`). -/
def subList (pat : List Char) : List Char → Bool
  | [] => pat.isEmpty
  | c :: rest => pat.isPrefixOf (c :: rest) || subList pat rest

/-- Python `pat in s` on strings. -/
def containsSub (s pat : String) : Bool :=
  subList pat.data s.data

/-- Splitting a user-supplied path string into components at "/"
(the components `Path` joins with; empty components are later dropped by
`normAbs`, as the OS drops them). -/
def splitPathAux (acc : List Char) : List Char → List String
  | [] => [String.mk acc.reverse]
  | c :: rest =>
    if c = '/' then String.mk acc.reverse :: splitPathAux [] rest
    else splitPathAux (c :: acc) rest

def splitPath (s : String) : List String :=
  splitPathAux [] s.data

/-- Index of the last '.' in a character list, if any. -/
def lastDotIdx : List Char → Option Nat
  | [] => none
  | c :: rest =>
    match lastDotIdx rest with
    | some i => some (i + 1)
    | none => if c = '.' then some 0 else none

/-- `PurePath.stem`: the final component without its suffix; a suffix exists
when the last dot sits strictly inside the name (not first, not last). -/
def stemOf (name : String) : String :=
  match lastDotIdx name.data with
  | some i =>
    if 0 < i ∧ i + 1 < name.data.length then String.mk (name.data.take i) else name
  | none => name

/--
`is_hidden_or_system(path)` from the source:

```python
path_str = str(path)
return ".obsidian" in path_str or ".trash" in path_str or any(
    part.startswith(".") for part in path.parts)
```
-/
def is_hidden_or_system (parts : List String) : Bool :=
  containsSub (pathStr parts) ".obsidian" || containsSub (pathStr parts) ".trash" ||
    parts.any (fun part => strStartsWith part ".")

/-! ## The path-addressed note store (read/write/delete) -/

/-- The filesystem content store: resolved absolute component lists ↦ file
contents.  (Directories are implicit; `mkdir(parents=True, exist_ok=True)`
is a no-op here.) -/
abbrev FS := List (List String × String)

def fsLookup (fs : FS) (key : List String) : Option String :=
  (fs.find? (fun e => e.1 == key)).map (fun e => e.2)

def fsErase (fs : FS) (key : List String) : FS :=
  fs.filter (fun e => !(e.1 == key))

def fsInsert (fs : FS) (key : List String) (content : String) : FS :=
  (key, content) :: fsErase fs key

/-- The security check shared by read/write/delete:
`str(file_path.resolve()).startswith(str(vault.resolve()))`. -/
def resolvesInsideStr (vault parts : List String) : Bool :=
  strStartsWith (pathStr (normAbs parts)) (pathStr (normAbs vault))

inductive ReadResult where
  | ok (name path content : String)
  | err (msg : String)
deriving DecidableEq, Repr

def ReadResult.contentOf : ReadResult → Option String
  | .ok _ _ c => some c
  | .err _ => none

inductive WriteResult where
  | success (path message : String)
  | err (msg : String)
deriving DecidableEq, Repr

inductive DeleteResult where
  | success (message : String)
  | err (msg : String)
deriving DecidableEq, Repr

/--
`read_note(path)`: existence check first (`NotFound`), then the
`startswith` containment check (`AccessDenied`), then the read.  The read
itself (`read_text` / `stat`) is assumed to succeed on a stored entry; its
`except` branch carries no claim.  The returned `modified`/`size` stat
fields are not modelled (no claim depends on them for this operation).
-/
def read_note (vault : List String) (fs : FS) (path : String) : ReadResult :=
  let fileParts := vault ++ splitPath path
  match fsLookup fs (normAbs fileParts) with
  | none => .err ("File not found: " ++ path)
  | some content =>
    if !resolvesInsideStr vault fileParts then .err "Access denied: path outside vault"
    else .ok (stemOf (fileParts.getLastD "")) path content

/--
`write_note(path, content)`: append ".md" when missing, containment check,
create parents, write.  Returns the result dict and the new store.
-/
def write_note (vault : List String) (fs : FS) (path content : String) :
    WriteResult × FS :=
  let path' := if strEndsWith path ".md" then path else path ++ ".md"
  let fileParts := vault ++ splitPath path'
  if !resolvesInsideStr vault fileParts then (.err "Access denied: path outside vault", fs)
  else (.success path' ("Note saved: " ++ path'), fsInsert fs (normAbs fileParts) content)

/--
`delete_note(path)`: existence check, containment check, then rename to
`vault/.trash/path` (POSIX rename overwrites an existing target).
-/
def delete_note (vault : List String) (fs : FS) (path : String) :
    DeleteResult × FS :=
  let fileParts := vault ++ splitPath path
  let key := normAbs fileParts
  match fsLookup fs key with
  | none => (.err ("File not found: " ++ path), fs)
  | some content =>
    if !resolvesInsideStr vault fileParts then (.err "Access denied: path outside vault", fs)
    else
      let trashKey := normAbs (vault ++ [".trash"] ++ splitPath path)
      (.success ("Moved to trash: " ++ path), fsInsert (fsErase fs key) trashKey content)

/-! ## The scan model and the query operations -/

/-- One Markdown entry yielded by `rglob("*.md")`, in scan order.
`relParts` is the path relative to the vault root (`relative_to(vault)`),
`mtime` stands for the ISO-8601 `modified` string (whose lexicographic
order agrees with timestamp order), `size` is `st_size`, and `ioOk` is
false when the per-entry `stat`/`read_text` raises (the `except` branches
skip such entries). -/
structure MdFile where
  relParts : List String
  mtime : Nat
  size : Nat
  content : String
  ioOk : Bool
deriving DecidableEq, Repr

/-- `md_file.stem`: the stem of the final component. -/
def fileStem (f : MdFile) : String :=
  stemOf (f.relParts.getLastD "")

/-- The hidden filter as every traversal applies it: to the entry's FULL
path `vault / rel` (the `rglob` result is absolute). -/
def visible (vault : List String) (f : MdFile) : Bool :=
  !is_hidden_or_system (vault ++ f.relParts)

/--
The common loop shape of `list_markdown_files`, `search_by_title` and
`full_text_search`:

```python
for entry in scan:
    if not pred(entry): continue
    results.append(entry)
    if len(results) >= limit: break
```

Note the cutoff is tested only AFTER an append, so even `limit = 0` lets
one match through.
-/
def scanLoop (pred : MdFile → Bool) : Nat → List MdFile → List MdFile
  | _, [] => []
  | limit, f :: rest =>
    if pred f then
      if limit ≤ 1 then [f] else f :: scanLoop pred (limit - 1) rest
    else scanLoop pred limit rest

structure NoteEntry where
  name : String
  path : String
  modified : Nat
  size : Nat
deriving DecidableEq, Repr

def toEntry (f : MdFile) : NoteEntry :=
  { name := fileStem f
    path := pathStr f.relParts
    modified := f.mtime
    size := f.size }

/-- Descending comparison on the `modified` key
(`sorted(..., key=lambda x: x["modified"], reverse=True)`; Python's sort and
`List.mergeSort` are both stable, so they agree extensionally). -/
def modDesc (a b : NoteEntry) : Bool :=
  decide (b.modified ≤ a.modified)

/--
`list_markdown_files(folder, limit)`: scan, skip hidden, skip stat
failures, append, break once `len(files) >= limit`, then sort by
`modified` descending.  `files` is the `rglob("*.md")` sequence of the
search path in scan order (a `folder` argument only changes which sequence
the filesystem yields, so it is not a separate parameter here; the early
`[]` return for a nonexistent search path corresponds to an empty scan).
-/
def list_markdown_files (vault : List String) (files : List MdFile) (limit : Nat) :
    List NoteEntry :=
  ((scanLoop (fun f => visible vault f && f.ioOk) limit files).map toEntry).mergeSort modDesc

/-- What §4.5 of the spec asks for instead: collect ALL matches, sort by
modified descending, then truncate to `limit`. -/
def list_markdown_files_spec (vault : List String) (files : List MdFile) (limit : Nat) :
    List NoteEntry :=
  (((files.filter (fun f => visible vault f && f.ioOk)).map toEntry).mergeSort modDesc).take limit

/-- Python `str.lower()` (ASCII case folding; the claims only exercise
ASCII queries and caseless scripts). -/
def lowerStr (s : String) : String :=
  String.mk (s.data.map Char.toLower)

structure TitleHit where
  name : String
  path : String
  modified : Nat
deriving DecidableEq, Repr

/-- `search_by_title(query, limit)`: keep visible entries whose stem
contains the query case-insensitively; stop once `limit` found. -/
def search_by_title (vault : List String) (files : List MdFile)
    (query : String) (limit : Nat) : List TitleHit :=
  (scanLoop
      (fun f =>
        visible vault f && containsSub (lowerStr (fileStem f)) (lowerStr query) && f.ioOk)
      limit files).map
    (fun f => { name := fileStem f, path := pathStr f.relParts, modified := f.mtime })

/-- First index of `pat` in `l` (Python `str.find` in the found case; the
caller only uses it under a containment guard). -/
def firstOcc : List Char → List Char → Option Nat
  | [], pat => if pat.isEmpty then some 0 else none
  | c :: rest, pat =>
    if pat.isPrefixOf (c :: rest) then some 0
    else (firstOcc rest pat).map (fun i => i + 1)

/-- Python `s[a:b]` for `0 ≤ a ≤ b` (clipped to the end). -/
def sliceStr (s : String) (a b : Nat) : String :=
  String.mk ((s.data.drop a).take (b - a))

/-- `str.replace` of newlines by spaces. -/
def nlClean (s : String) : String :=
  String.mk (s.data.map (fun c => if c = '\n' then ' ' else c))

/--
The snippet construction of `full_text_search`:

```python
idx = content.lower().find(query_lower)
start = max(0, idx - 50)
end = min(len(content), idx + len(query) + 50)
snippet = content[start:end].replace("\n", " ")
... f"...{snippet}..."
```

(`max(0, idx - 50)` is truncated `Nat` subtraction.)
-/
def snippetOf (content query : String) : String :=
  let idx := (firstOcc (lowerStr content).data (lowerStr query).data).getD 0
  let start := idx - 50
  let stop := min content.data.length (idx + query.data.length + 50)
  "..." ++ nlClean (sliceStr content start stop) ++ "..."

structure FtsHit where
  name : String
  path : String
  snippet : String
  modified : Nat
deriving DecidableEq, Repr

/-- `full_text_search(query, limit)`: read each visible entry (read
failures skipped), keep those whose content contains the query
case-insensitively, attach the snippet; stop once `limit` found. -/
def full_text_search (vault : List String) (files : List MdFile)
    (query : String) (limit : Nat) : List FtsHit :=
  (scanLoop
      (fun f =>
        visible vault f && f.ioOk && containsSub (lowerStr f.content) (lowerStr query))
      limit files).map
    (fun f =>
      { name := fileStem f
        path := pathStr f.relParts
        snippet := snippetOf f.content query
        modified := f.mtime })

/-- `list_folders()`: all non-hidden directories (the `rglob("*")`
directory entries, given as relative component lists in scan order),
relative paths sorted ascending (Python string order = code-point
lexicographic, matching `String`'s order). -/
def list_folders (vault : List String) (dirs : List (List String)) : List String :=
  ((dirs.filter (fun d => !is_hidden_or_system (vault ++ d))).map pathStr).mergeSort
    (fun a b => decide (a ≤ b))

/-- Appending one tag occurrence to the tag map (`dict` preserves insertion
order; a fresh key goes to the back, an existing key's list is extended). -/
def addTag (m : List (String × List String)) (tag noteName : String) :
    List (String × List String) :=
  if (m.find? (fun e => e.1 == tag)).isSome then
    m.map (fun e => if e.1 == tag then (e.1, e.2 ++ [noteName]) else e)
  else m ++ [(tag, [noteName])]

/-- The character class of the tag regex `MARKER([w-class and u0080-uffff]+)`: ASCII
word characters, or any code point in `[0x80, 0xffff]`.  (For code points
below `0x80` this is exactly Python's `\w`; word characters above `0x7f`
but at most `0xffff` fall in the explicit range either way.) -/
def isTagChar (c : Char) : Bool :=
  c.isAlphanum || c = '_' || (0x80 ≤ c.toNat && c.toNat ≤ 0xffff)

inductive TagState where
  | idle
  | armed
  | run (acc : List Char)

/--
Left-to-right non-overlapping scan for `re.findall(r"MARKER([w-class and u0080-uffff]+)", s)`:
`armed` means a `#` was just seen with no class character consumed yet
(a failed `#` still leaves the next `#` able to start a match), `run acc`
holds the reversed characters of the greedy group in progress; scanning
resumes directly after each match.
-/
def tagScanAux : TagState → List Char → List String
  | .idle, [] => []
  | .armed, [] => []
  | .run acc, [] => [String.mk acc.reverse]
  | .idle, c :: rest =>
    if c = '#' then tagScanAux .armed rest else tagScanAux .idle rest
  | .armed, c :: rest =>
    if isTagChar c then tagScanAux (.run [c]) rest
    else if c = '#' then tagScanAux .armed rest
    else tagScanAux .idle rest
  | .run acc, c :: rest =>
    if isTagChar c then tagScanAux (.run (c :: acc)) rest
    else if c = '#' then String.mk acc.reverse :: tagScanAux .armed rest
    else String.mk acc.reverse :: tagScanAux .idle rest

/-- `re.findall(r"MARKER([w-class and u0080-uffff]+)", content)`. -/
def extractTags (content : String) : List String :=
  tagScanAux .idle content.data

/-- `get_tags()`: over every visible readable entry, append the entry's
stem to each found tag's list (duplicates kept). -/
def get_tags (vault : List String) (files : List MdFile) :
    List (String × List String) :=
  files.foldl
    (fun m f =>
      if visible vault f && f.ioOk then
        (extractTags f.content).foldl (fun m2 t => addTag m2 t (fileStem f)) m
      else m)
    []

inductive InfoResult where
  | ok (vaultPath : String) (noteCount folderCount : Nat)
  | err (msg : String)
deriving DecidableEq, Repr

/-- `get_vault_info()`: error when the root is missing, else counts of
non-hidden Markdown files and non-hidden directories (no `try`, so no
`ioOk` filtering here). -/
def get_vault_info (vault : List String) (vaultExists : Bool)
    (files : List MdFile) (dirs : List (List String)) : InfoResult :=
  if !vaultExists then .err ("Vault not found: " ++ pathStr vault)
  else
    .ok (pathStr vault)
      ((files.filter (fun f => !is_hidden_or_system (vault ++ f.relParts))).length)
      ((dirs.filter (fun d => !is_hidden_or_system (vault ++ d))).length)

/-- A plain path component: not empty, not ".", not "..". -/
def plainSeg (s : String) : Bool :=
  !(s == "") && !(s == ".") && !(s == "..")

def plainParts (l : List String) : Bool :=
  l.all plainSeg

/-- The hidden predicate as the claim words it: some segment starts with a
dot, or ".obsidian" or ".trash" occurs as a WHOLE path segment (contrast
with `is_hidden_or_system`, which substring-matches the joined string). -/
def hiddenSpecSegs (parts : List String) : Bool :=
  parts.any (fun part =>
    strStartsWith part "." || part == ".obsidian" || part == ".trash")

/-! ## The tool dispatcher (`call_tool`) -/

/-- The structured argument object of a call; `none` models an absent key. -/
structure Args where
  folder : Option String := none
  limit : Option Nat := none
  path : Option String := none
  content : Option String := none
  query : Option String := none
deriving DecidableEq, Repr

/-- The filesystem state a call runs against: the vault root, whether it
exists, the `rglob` scan sequences, and the path-addressed content store
(two views of the same tree, each used by the operations that access the
tree that way). -/
structure World where
  vault : List String
  vaultExists : Bool
  files : List MdFile
  dirs : List (List String)
  fs : FS
deriving DecidableEq, Repr

/-- The JSON-serialized result a call produces.  `error` is the
`{"error": ...}` dict (both the unknown-tool branch and the outer
`except` produce one; errors are data, not faults). -/
inductive Payload where
  | entries (xs : List NoteEntry)
  | noteRes (r : ReadResult)
  | writeRes (r : WriteResult)
  | titleHits (xs : List TitleHit)
  | ftsHits (xs : List FtsHit)
  | folderList (xs : List String)
  | tagMap (m : List (String × List String))
  | delRes (r : DeleteResult)
  | infoRes (r : InfoResult)
  | error (msg : String)
deriving DecidableEq, Repr

/-- The operation names the `if/elif` chain of `call_tool` handles. -/
def handledToolNames : List String :=
  ["list_notes", "get_note", "create_note", "update_note", "search_notes",
   "full_text_search", "list_folders", "get_tags", "delete_note", "get_vault_info"]

/--
`call_tool(name, arguments)`: dispatch on the name; a missing required
argument raises `KeyError` which the surrounding `try` converts into an
error result (`str(KeyError('path')) = "'path'"`); an unmatched name
produces `{"error": f"Unknown tool: {name}"}`.  State effects of the write
and delete branches live in the per-operation functions; the dispatcher
returns the serialized result.
-/
def callTool (w : World) (name : String) (args : Args) : Payload :=
  if name == "list_notes" then
    .entries (list_markdown_files w.vault w.files (args.limit.getD 50))
  else if name == "get_note" then
    match args.path with
    | some p => .noteRes (read_note w.vault w.fs p)
    | none => .error "'path'"
  else if name == "create_note" then
    match args.path, args.content with
    | some p, some c => .writeRes (write_note w.vault w.fs p c).1
    | none, _ => .error "'path'"
    | _, none => .error "'content'"
  else if name == "update_note" then
    match args.path, args.content with
    | some p, some c => .writeRes (write_note w.vault w.fs p c).1
    | none, _ => .error "'path'"
    | _, none => .error "'content'"
  else if name == "search_notes" then
    match args.query with
    | some q => .titleHits (search_by_title w.vault w.files q (args.limit.getD 20))
    | none => .error "'query'"
  else if name == "full_text_search" then
    match args.query with
    | some q => .ftsHits (full_text_search w.vault w.files q (args.limit.getD 20))
    | none => .error "'query'"
  else if name == "list_folders" then
    .folderList (list_folders w.vault w.dirs)
  else if name == "get_tags" then
    .tagMap (get_tags w.vault w.files)
  else if name == "delete_note" then
    match args.path with
    | some p => .delRes (delete_note w.vault w.fs p).1
    | none => .error "'path'"
  else if name == "get_vault_info" then
    .infoRes (get_vault_info w.vault w.vaultExists w.files w.dirs)
  else .error ("Unknown tool: " ++ name)

/-- A 200-character content with "apple" at offset 100 (and nowhere
earlier, case-insensitively): 100 z's, "apple", 95 q's. -/
def appleContent : String :=
  String.mk (List.replicate 100 'z' ++ "apple".data ++ List.replicate 95 'q')

/-- A concrete visible Markdown entry holding `appleContent`. -/
def appleFile : MdFile :=
  { relParts := ["fruit.md"], mtime := 7, size := 200, content := appleContent, ioOk := true }

/-! ## Basic lemmas about the path and string primitives -/

theorem isPrefixOf_append_self [BEq α] [LawfulBEq α] :
    ∀ (l t : List α), l.isPrefixOf (l ++ t) = true
  | [], _ => by simp
  | a :: as, t => by
    simp only [List.cons_append, List.isPrefixOf_cons₂, beq_self_eq_true, Bool.true_and]
    exact isPrefixOf_append_self as t

theorem isPrefixOf_extend [BEq α] [LawfulBEq α] :
    ∀ {l a : List α} (t : List α), l.isPrefixOf a = true → l.isPrefixOf (a ++ t) = true
  | [], _, _, _ => by simp
  | _ :: _, [], _, h => by simp [List.isPrefixOf] at h
  | l :: ls, a :: as, t, h => by
    simp only [List.isPrefixOf_cons₂, Bool.and_eq_true] at h
    simp only [List.cons_append, List.isPrefixOf_cons₂, h.1, Bool.true_and]
    exact isPrefixOf_extend t h.2

theorem isPrefixOf_iff_exists [BEq α] [LawfulBEq α] :
    ∀ {l a : List α}, l.isPrefixOf a = true ↔ ∃ t, l ++ t = a
  | [], a => by simp
  | l :: ls, [] => by simp [List.isPrefixOf]
  | l :: ls, a :: as => by
    simp only [List.isPrefixOf_cons₂, Bool.and_eq_true, beq_iff_eq, List.cons_append,
      List.cons.injEq, isPrefixOf_iff_exists]
    constructor
    · rintro ⟨rfl, t, rfl⟩; exact ⟨t, rfl, rfl⟩
    · rintro ⟨t, rfl, rfl⟩; exact ⟨rfl, t, rfl⟩

theorem subList_nil_left : ∀ (l : List Char), subList [] l = true
  | [] => rfl
  | _ :: _ => by simp [subList]

theorem subList_extend {pat l : List Char} (t : List Char) (h : subList pat l = true) :
    subList pat (l ++ t) = true := by
  induction l with
  | nil =>
    simp only [subList, List.isEmpty_iff] at h
    subst h
    exact subList_nil_left t
  | cons c rest ih =>
    simp only [subList, Bool.or_eq_true] at h
    simp only [List.cons_append, subList, Bool.or_eq_true]
    rcases h with h | h
    · exact Or.inl (by simpa using @isPrefixOf_extend _ _ _ pat (c :: rest) t h)
    · exact Or.inr (ih h)

theorem subList_infix_equiv {pat : List Char} : ∀ {l : List Char}, subList pat l = true ↔ pat <:+: l
  | [] => by
    simp only [subList, List.isEmpty_iff]
    constructor
    · rintro rfl; exact List.infix_rfl
    · intro h; simpa using h.length_le
  | c :: rest => by
    simp only [subList, Bool.or_eq_true, @subList_infix_equiv pat rest, isPrefixOf_iff_exists]
    constructor
    · rintro (⟨t, ht⟩ | ⟨s, t, ht⟩)
      · exact ⟨[], t, by simpa using ht⟩
      · exact ⟨c :: s, t, by simpa using ht⟩
    · rintro ⟨s, t, hst⟩
      cases s with
      | nil => exact Or.inl ⟨t, by simpa using hst⟩
      | cons x xs =>
        refine Or.inr ⟨xs, t, ?_⟩
        have := congrArg List.tail hst
        simpa using this

theorem firstOcc_some_subList :
    ∀ {l pat : List Char} {i : Nat}, firstOcc l pat = some i → subList pat l = true
  | [], pat, i, h => by
    simp only [firstOcc] at h
    split at h
    · simpa [subList] using ‹pat.isEmpty = true›
    · exact absurd h (by simp)
  | c :: rest, pat, i, h => by
    simp only [firstOcc] at h
    split at h
    · simp [subList, ‹pat.isPrefixOf (c :: rest) = true›]
    · simp only [Option.map_eq_some'] at h
      obtain ⟨j, hj, _⟩ := h
      simp [subList, firstOcc_some_subList hj]

theorem foldl_normStep_plain :
    ∀ (l : List String) (acc : List String), plainParts l = true →
      List.foldl normStep acc l = acc ++ l
  | [], acc, _ => by simp
  | s :: t, acc, h => by
    simp only [plainParts, List.all_cons, Bool.and_eq_true] at h
    obtain ⟨hs, ht⟩ := h
    simp only [plainSeg, Bool.and_eq_true, Bool.not_eq_true'] at hs
    simp only [List.foldl_cons, normStep, hs.1.1, hs.1.2, hs.2, Bool.or_self,
      Bool.false_eq_true, if_false]
    rw [foldl_normStep_plain t (acc ++ [s]) ht]
    simp

theorem normAbs_plain (l : List String) (h : plainParts l = true) : normAbs l = l := by
  simpa using foldl_normStep_plain l [] h

theorem normAbs_append_plain (v rest : List String) (h : plainParts rest = true) :
    normAbs (v ++ rest) = normAbs v ++ rest := by
  rw [normAbs, List.foldl_append]
  exact foldl_normStep_plain rest (normAbs v) h

theorem pathStr_append :
    ∀ (xs ys : List String), xs ≠ [] → ys ≠ [] →
      pathStr (xs ++ ys) = pathStr xs ++ "/" ++ pathStr ys
  | [], _, hx, _ => absurd rfl hx
  | [x], y :: t, _, _ => by simp [pathStr]
  | x :: x' :: rest, ys, _, hy => by
    have ih := pathStr_append (x' :: rest) ys (by simp) hy
    show pathStr (x :: x' :: (rest ++ ys)) = pathStr (x :: x' :: rest) ++ "/" ++ pathStr ys
    have h1 : pathStr (x :: x' :: (rest ++ ys)) = x ++ "/" ++ pathStr (x' :: (rest ++ ys)) := rfl
    have h2 : pathStr (x :: x' :: rest) = x ++ "/" ++ pathStr (x' :: rest) := rfl
    rw [h1, h2, show x' :: (rest ++ ys) = (x' :: rest) ++ ys from rfl, ih]
    apply String.ext
    simp [String.data_append, List.append_assoc]

/-- A plain nonempty relative path under a plain vault root passes the
`startswith` containment check. -/
theorem resolvesInside_plain (v rest : List String)
    (hv : plainParts v = true) (hr : plainParts rest = true)
    (hvne : v ≠ []) (hrne : rest ≠ []) :
    resolvesInsideStr v (v ++ rest) = true := by
  unfold resolvesInsideStr
  rw [normAbs_append_plain v rest hr, normAbs_plain v hv, pathStr_append v rest hvne hrne]
  unfold strStartsWith
  have hdata : (pathStr v ++ "/" ++ pathStr rest).data
      = (pathStr v).data ++ (("/" ++ pathStr rest).data) := by
    simp [String.data_append, List.append_assoc]
  rw [hdata]
  exact isPrefixOf_append_self ..

/-! ## Lemmas about the store -/

theorem fsLookup_insert_self (fs : FS) (k : List String) (c : String) :
    fsLookup (fsInsert fs k c) k = some c := by
  simp [fsLookup, fsInsert, List.find?_cons]

theorem fsLookup_erase_self (fs : FS) (k : List String) :
    fsLookup (fsErase fs k) k = none := by
  induction fs with
  | nil => rfl
  | cons e rest ih =>
    by_cases h : (e.1 == k) = true
    · simp only [fsErase, List.filter_cons, h, Bool.not_true, Bool.false_eq_true, if_false]
      exact ih
    · simp only [Bool.not_eq_true] at h
      simp only [fsLookup, fsErase, List.filter_cons, h, Bool.not_false, if_true,
        List.find?_cons, Bool.false_eq_true] at ih ⊢
      exact ih

theorem fsLookup_erase_ne (fs : FS) {k' k : List String} (h : k ≠ k') :
    fsLookup (fsErase fs k') k = fsLookup fs k := by
  induction fs with
  | nil => rfl
  | cons e rest ih =>
    by_cases he : (e.1 == k') = true
    · have he' : e.1 = k' := by simpa using he
      have hk : (e.1 == k) = false := beq_eq_false_iff_ne.mpr (he' ▸ Ne.symm h)
      have h1 : fsErase (e :: rest) k' = fsErase rest k' := by
        simp [fsErase, List.filter_cons, he]
      have h2 : fsLookup (e :: rest) k = fsLookup rest k := by
        simp [fsLookup, List.find?_cons, hk]
      rw [h1, h2, ih]
    · simp only [Bool.not_eq_true] at he
      have h1 : fsErase (e :: rest) k' = e :: fsErase rest k' := by
        simp [fsErase, List.filter_cons, he]
      rw [h1]
      by_cases hk : (e.1 == k) = true
      · simp [fsLookup, List.find?_cons, hk]
      · simp only [Bool.not_eq_true] at hk
        have h2 : fsLookup (e :: rest) k = fsLookup rest k := by
          simp [fsLookup, List.find?_cons, hk]
        have h3 : fsLookup (e :: fsErase rest k') k = fsLookup (fsErase rest k') k := by
          simp [fsLookup, List.find?_cons, hk]
        rw [h3, h2, ih]

theorem fsLookup_cons_ne (fs : FS) {k' k : List String} (c : String) (h : k' ≠ k) :
    fsLookup ((k', c) :: fs) k = fsLookup fs k := by
  simp [fsLookup, List.find?_cons, beq_eq_false_iff_ne.mpr h]

/-! ## Lemmas about the scan loop -/

theorem scanLoop_eq_take (pred : MdFile → Bool) :
    ∀ (limit : Nat) (files : List MdFile),
      scanLoop pred limit files = (files.filter pred).take (max 1 limit)
  | _, [] => by simp [scanLoop]
  | limit, f :: rest => by
    by_cases hp : pred f = true
    · simp only [scanLoop, hp, if_true, List.filter_cons, hp]
      by_cases hl : limit ≤ 1
      · rw [if_pos hl, show max 1 limit = 1 from by omega]
        rfl
      · rw [if_neg hl, scanLoop_eq_take pred (limit - 1) rest,
          show max 1 limit = (max 1 (limit - 1)) + 1 from by omega]
        rfl
    · simp only [Bool.not_eq_true] at hp
      simp only [scanLoop, hp, Bool.false_eq_true, if_false, List.filter_cons, hp]
      exact scanLoop_eq_take pred limit rest

theorem scanLoop_eq_nil (pred : MdFile → Bool) (limit : Nat) (files : List MdFile)
    (h : ∀ f ∈ files, pred f = false) : scanLoop pred limit files = [] := by
  rw [scanLoop_eq_take]
  have : files.filter pred = [] := List.filter_eq_nil_iff.mpr (by simpa using h)
  simp [this]

theorem take_min_length (l : List α) (n : Nat) : l.take (min l.length n) = l.take n := by
  rcases Nat.le_total l.length n with h | h
  · rw [Nat.min_eq_left h, List.take_length, List.take_of_length_le h]
  · rw [Nat.min_eq_right h]

theorem slice_empty_query (l : List Char) :
    (l.drop (0 - 50)).take (min l.length (0 + ("" : String).data.length + 50) - (0 - 50))
      = l.take 50 := by
  have h1 : (0 : Nat) - 50 = 0 := rfl
  have h2 : (0 + ("" : String).data.length + 50) = 50 := rfl
  rw [h1, h2, List.drop_zero, Nat.sub_zero, take_min_length]

/-! ## Lemmas about queries -/

theorem firstOcc_nil_pat : ∀ (l : List Char), firstOcc l [] = some 0
  | [] => rfl
  | _ :: _ => by simp [firstOcc]

theorem containsSub_empty_pat (s : String) : containsSub s "" = true :=
  subList_nil_left s.data

/-- The snippet for the empty query starts at content offset 0: the first
50 characters, newline-cleaned, between ellipses. -/
theorem snippetOf_empty (c : String) :
    snippetOf c "" = "..." ++ nlClean (String.mk (c.data.take 50)) ++ "..." := by
  have hdata : (lowerStr "").data = [] := rfl
  simp only [snippetOf, hdata, firstOcc_nil_pat, Option.getD_some, sliceStr,
    slice_empty_query]

/-- Any entry under a vault root that is itself classified "bad" (a
dot-prefixed component or the folder names as substrings of its string)
is classified hidden, since the hidden filter sees the FULL path. -/
theorem is_hidden_extend (v rel : List String)
    (hbad : v.any (fun s => strStartsWith s ".") = true
      ∨ containsSub (pathStr v) ".obsidian" = true
      ∨ containsSub (pathStr v) ".trash" = true) :
    is_hidden_or_system (v ++ rel) = true := by
  have hstr : ∀ (pat : String), pat.data ≠ [] → containsSub (pathStr v) pat = true →
      containsSub (pathStr (v ++ rel)) pat = true := by
    intro pat hpat h
    have hvne : v ≠ [] := by
      rintro rfl
      rw [show containsSub (pathStr []) pat = pat.data.isEmpty from rfl] at h
      exact hpat (List.isEmpty_iff.mp h)
    cases hrel : rel with
    | nil => simpa [hrel] using h
    | cons r rs =>
      rw [← hrel]
      have hrne : rel ≠ [] := by simp [hrel]
      rw [pathStr_append v rel hvne hrne]
      unfold containsSub at h ⊢
      have hdata2 : (pathStr v ++ "/" ++ pathStr rel).data
          = (pathStr v).data ++ ("/" ++ pathStr rel).data := by
        simp [List.append_assoc]
      rw [hdata2]
      exact subList_extend _ h
  rcases hbad with h | h | h
  · have : (v ++ rel).any (fun s => strStartsWith s ".") = true := by
      simp only [List.any_append, Bool.or_eq_true]
      exact Or.inl h
    simp [is_hidden_or_system, this]
  · simp [is_hidden_or_system, hstr ".obsidian" (by decide) h]
  · simp [is_hidden_or_system, hstr ".trash" (by decide) h]

/-- `get_tags` over a scan of exclusively-skipped entries is empty. -/
theorem get_tags_nil (v : List String) (files : List MdFile)
    (h : ∀ f ∈ files, visible v f = false) : get_tags v files = [] := by
  have : ∀ (l : List MdFile) (acc : List (String × List String)),
      (∀ f ∈ l, visible v f = false) →
      l.foldl
        (fun m f =>
          if visible v f && f.ioOk then
            (extractTags f.content).foldl (fun m2 t => addTag m2 t (fileStem f)) m
          else m)
        acc = acc := by
    intro l
    induction l with
    | nil => intro acc _; rfl
    | cons f rest ih =>
      intro acc hl
      have hf : visible v f = false := hl f (by simp)
      simp only [List.foldl_cons, hf, Bool.false_and, Bool.false_eq_true, if_false]
      exact ih acc (fun g hg => hl g (by simp [hg]))
  exact this files [] h

/-! ## Claim theorems -/

/--
C1: the claim says every operation on a relative path resolving outside
VaultRoot returns AccessDenied and performs no mutation.  The code instead
checks `str(resolved).startswith(str(vault_resolved))`, a string-prefix
test that a SIBLING directory whose name extends the vault's name passes.
With vault `/home/user/vault` and path `../vault2/secret.md` (resolving to
`/home/user/vault2/secret.md`, outside the vault), `read` returns the
outside file's content, and `write` of `../vault2/evil.md` succeeds and
creates a file outside the vault — the resolved key is not under the
vault's components.
-/
theorem C1_code_bug_eval :
    read_note ["home", "user", "vault"]
        [(["home", "user", "vault2", "secret.md"], "top secret")] "../vault2/secret.md"
      = ReadResult.ok "secret" "../vault2/secret.md" "top secret"
    ∧ (write_note ["home", "user", "vault"] [] "../vault2/evil.md" "x").1
      = WriteResult.success "../vault2/evil.md" "Note saved: ../vault2/evil.md"
    ∧ fsLookup (write_note ["home", "user", "vault"] [] "../vault2/evil.md" "x").2
        ["home", "user", "vault2", "evil.md"] = some "x"
    ∧ List.isPrefixOf ["home", "user", "vault"] ["home", "user", "vault2", "evil.md"]
      = false := by
  decide

/--
C2 counterexample: with two visible notes, the older one first in scan
order and `limit = 1`, the code returns the OLDER note (it truncates to
the first `limit` scanned entries before sorting), while the claimed
behaviour (`list_markdown_files_spec`: collect all, sort by modified
descending, then truncate) returns the newer one.
-/
theorem C2_counterexample :
    list_markdown_files ["v"]
        [⟨["old.md"], 1, 0, "", true⟩, ⟨["new.md"], 2, 0, "", true⟩] 1
      = [{ name := "old", path := "old.md", modified := 1, size := 0 }]
    ∧ list_markdown_files_spec ["v"]
        [⟨["old.md"], 1, 0, "", true⟩, ⟨["new.md"], 2, 0, "", true⟩] 1
      = [{ name := "new", path := "new.md", modified := 2, size := 0 }]
    ∧ ({ name := "old", path := "old.md", modified := 1, size := 0 } : NoteEntry)
      ≠ { name := "new", path := "new.md", modified := 2, size := 0 } := by
  refine ⟨?_, ?_, by decide⟩
  · show ((scanLoop (fun f => visible ["v"] f && f.ioOk) 1
        [⟨["old.md"], 1, 0, "", true⟩, ⟨["new.md"], 2, 0, "", true⟩]).map toEntry).mergeSort
        modDesc = _
    rw [show (scanLoop (fun f => visible ["v"] f && f.ioOk) 1
        [⟨["old.md"], 1, 0, "", true⟩, ⟨["new.md"], 2, 0, "", true⟩]).map toEntry
        = [{ name := "old", path := "old.md", modified := 1, size := 0 }] from by decide]
    simp
  · show ((([⟨["old.md"], 1, 0, "", true⟩, ⟨["new.md"], 2, 0, "", true⟩].filter
        (fun f => visible ["v"] f && f.ioOk)).map toEntry).mergeSort modDesc).take 1 = _
    rw [show ([(⟨["old.md"], 1, 0, "", true⟩ : MdFile), ⟨["new.md"], 2, 0, "", true⟩].filter
        (fun f => visible ["v"] f && f.ioOk)).map toEntry
        = [{ name := "old", path := "old.md", modified := 1, size := 0 },
           { name := "new", path := "new.md", modified := 2, size := 0 }] from by decide]
    simp [List.mergeSort, List.splitInTwo, List.merge, modDesc]

/--
C2 amended: `listNotes` keeps only the first `limit` visible
stat-readable matches in scan order (one match even when `limit = 0`,
since the cutoff is tested after appending) and sorts THOSE by
modified-time descending; matches beyond the first `limit` scanned are
dropped regardless of their modification time.  Formally: the result is a
permutation of the entries of the first `max 1 limit` filtered scan
entries, and is sorted by `modified` descending.
-/
theorem C2_amended (vault : List String) (files : List MdFile) (limit : Nat) :
    List.Perm (list_markdown_files vault files limit)
      (((files.filter (fun f => visible vault f && f.ioOk)).take (max 1 limit)).map toEntry)
    ∧ (list_markdown_files vault files limit).Pairwise
        (fun a b => b.modified ≤ a.modified) := by
  constructor
  · have hperm : List.Perm (list_markdown_files vault files limit)
        ((scanLoop (fun f => visible vault f && f.ioOk) limit files).map toEntry) :=
      List.mergeSort_perm ..
    rwa [scanLoop_eq_take] at hperm
  · have h := @List.sorted_mergeSort NoteEntry modDesc
      (fun a b c hab hbc => by
        simp only [modDesc, decide_eq_true_eq] at hab hbc ⊢; omega)
      (fun a b => by
        simp only [modDesc, Bool.or_eq_true, decide_eq_true_eq]; omega)
      ((scanLoop (fun f => visible vault f && f.ioOk) limit files).map toEntry)
    exact h.imp (fun hab => by simpa [modDesc] using hab)

/--
C3 counterexample: the path `notes.obsidianbak/a.md` has no segment
starting with a dot and neither ".obsidian" nor ".trash" as a whole
segment (`hiddenSpecSegs` is false), yet `is_hidden_or_system` classifies
it hidden, because ".obsidian" occurs as a SUBSTRING of the joined path
string.
-/
theorem C3_counterexample :
    is_hidden_or_system ["notes.obsidianbak", "a.md"] = true
    ∧ hiddenSpecSegs ["notes.obsidianbak", "a.md"] = false := by
  decide

/--
C3 amended: the classification is a pure predicate that is true iff some
path segment starts with a dot, or ".obsidian" or ".trash" occurs as a
substring of the slash-joined path string (whole-segment occurrences are a
special case, but substring occurrences inside a segment also count).
-/
theorem C3_amended (parts : List String) :
    is_hidden_or_system parts = true ↔
      (∃ part ∈ parts, strStartsWith part "." = true)
      ∨ ".obsidian".data <:+: (pathStr parts).data
      ∨ ".trash".data <:+: (pathStr parts).data := by
  simp only [is_hidden_or_system, Bool.or_eq_true, containsSub, subList_infix_equiv,
    List.any_eq_true]
  constructor
  · rintro ((h | h) | h)
    · exact Or.inr (Or.inl h)
    · exact Or.inr (Or.inr h)
    · exact Or.inl h
  · rintro (h | h | h)
    · exact Or.inr h
    · exact Or.inl (Or.inl h)
    · exact Or.inl (Or.inr h)

/--
C4: deleting an existing in-vault note (a plain relative path under a
plain, nonempty vault root) succeeds; afterwards reading the note's path
fails NotFound, and reading the mirrored path under the trash folder
(`tp`, whose components are `.trash` followed by the note's components)
returns the note's exact prior content — the content is moved, never
erased.
-/
theorem C4_delete_soft (vault : List String) (fs : FS) (p tp content : String)
    (hv : plainParts vault = true) (hvne : vault ≠ [])
    (hp : plainParts (splitPath p) = true) (hpne : splitPath p ≠ [])
    (htp : splitPath tp = ".trash" :: splitPath p)
    (hmem : fsLookup fs (vault ++ splitPath p) = some content) :
    (delete_note vault fs p).1 = DeleteResult.success ("Moved to trash: " ++ p)
    ∧ read_note vault (delete_note vault fs p).2 p
      = ReadResult.err ("File not found: " ++ p)
    ∧ (read_note vault (delete_note vault fs p).2 tp).contentOf = some content := by
  have htrash : plainParts (".trash" :: splitPath p) = true := by
    simp only [plainParts, List.all_cons, Bool.and_eq_true]
    exact ⟨by decide, hp⟩
  have hK : normAbs (vault ++ splitPath p) = vault ++ splitPath p := by
    rw [normAbs_append_plain _ _ hp, normAbs_plain _ hv]
  have hTK : normAbs (vault ++ [".trash"] ++ splitPath p)
      = vault ++ ".trash" :: splitPath p := by
    rw [List.append_assoc, show [".trash"] ++ splitPath p = ".trash" :: splitPath p from rfl,
      normAbs_append_plain _ _ htrash, normAbs_plain _ hv]
  have hTK2 : normAbs (vault ++ ".trash" :: splitPath p)
      = vault ++ ".trash" :: splitPath p := by
    rw [normAbs_append_plain _ _ htrash, normAbs_plain _ hv]
  have hacc : resolvesInsideStr vault (vault ++ splitPath p) = true :=
    resolvesInside_plain _ _ hv hp hvne hpne
  have hacc2 : resolvesInsideStr vault (vault ++ ".trash" :: splitPath p) = true :=
    resolvesInside_plain _ _ hv htrash hvne (by simp)
  have hne : vault ++ ".trash" :: splitPath p ≠ vault ++ splitPath p := by
    intro h
    have hlen := congrArg List.length h
    simp at hlen
  have hdel : delete_note vault fs p =
      (DeleteResult.success ("Moved to trash: " ++ p),
        fsInsert (fsErase fs (vault ++ splitPath p)) (vault ++ ".trash" :: splitPath p)
          content) := by
    simp only [delete_note, hK, hmem, hacc, Bool.not_true, Bool.false_eq_true, if_false, hTK]
  refine ⟨by rw [hdel], ?_, ?_⟩
  · rw [hdel]
    have hnone : fsLookup (fsInsert (fsErase fs (vault ++ splitPath p))
        (vault ++ ".trash" :: splitPath p) content) (vault ++ splitPath p) = none := by
      rw [fsInsert, fsLookup_cons_ne _ _ hne, fsLookup_erase_ne _ (Ne.symm hne),
        fsLookup_erase_self]
    simp only [read_note, hK, hnone]
  · rw [hdel]
    simp only [read_note, htp, hTK2, fsLookup_insert_self, hacc2, Bool.not_true,
      Bool.false_eq_true, if_false, ReadResult.contentOf]

/--
C4 witness: a concrete vault with one note `sub/n.md`; deleting it
succeeds, the original path reads NotFound, and `.trash/sub/n.md` reads
the prior content.
-/
theorem C4_witness :
    (delete_note ["v"] [(["v", "sub", "n.md"], "content")] "sub/n.md").1
      = DeleteResult.success ("Moved to trash: " ++ "sub/n.md")
    ∧ read_note ["v"] (delete_note ["v"] [(["v", "sub", "n.md"], "content")] "sub/n.md").2
        "sub/n.md" = ReadResult.err ("File not found: " ++ "sub/n.md")
    ∧ (read_note ["v"] (delete_note ["v"] [(["v", "sub", "n.md"], "content")] "sub/n.md").2
        ".trash/sub/n.md").contentOf = some "content" :=
  C4_delete_soft ["v"] [(["v", "sub", "n.md"], "content")] "sub/n.md" ".trash/sub/n.md"
    "content" (by decide) (by decide) (by decide) (by decide) (by decide) (by decide)

/--
C5 counterexample: for the in-vault path `note` (no Markdown extension),
`write` succeeds — storing at `note.md` because the extension is
auto-appended — but `read` of the same path `note` fails NotFound instead
of returning the written content, so the round-trip fails for paths
without the `.md` extension.
-/
theorem C5_counterexample :
    (write_note ["v"] [] "note" "hi").1 = WriteResult.success "note.md" "Note saved: note.md"
    ∧ read_note ["v"] (write_note ["v"] [] "note" "hi").2 "note"
      = ReadResult.err "File not found: note" := by
  decide

/--
C5 amended: for every in-vault path `p` that already ends in the `.md`
extension (so the write does not rewrite the path), and every content
string `c`, `write(p, c)` followed by `read(p)` returns content exactly
equal to `c`.  (The unamended claim fails for extensionless paths, which
`write` silently redirects to `p + ".md"` while `read` does not.)
-/
theorem C5_roundtrip (vault : List String) (fs : FS) (p c : String)
    (hmd : strEndsWith p ".md" = true)
    (hacc : resolvesInsideStr vault (vault ++ splitPath p) = true) :
    (read_note vault (write_note vault fs p c).2 p).contentOf = some c := by
  have hw : (write_note vault fs p c).2 = fsInsert fs (normAbs (vault ++ splitPath p)) c := by
    simp only [write_note, hmd, if_true, hacc, Bool.not_true, Bool.false_eq_true, if_false]
  rw [hw]
  simp only [read_note, fsLookup_insert_self, hacc, Bool.not_true, Bool.false_eq_true,
    if_false, ReadResult.contentOf]

/--
C5 witness: the round-trip at the concrete in-vault path `note.md` with
content `hi`.
-/
theorem C5_witness :
    strEndsWith "note.md" ".md" = true
    ∧ resolvesInsideStr ["v"] (["v"] ++ splitPath "note.md") = true
    ∧ (read_note ["v"] (write_note ["v"] [] "note.md" "hi").2 "note.md").contentOf
      = some "hi" :=
  ⟨by decide, by decide, C5_roundtrip ["v"] [] "note.md" "hi" (by decide) (by decide)⟩

/--
C6: for a visible readable 200-character note whose first case-insensitive
match of the 5-character query "apple" is at offset 100, the full-text
search result's snippet is exactly characters [50, 155) of the original
content (50 before the match, the match, 50 after), newlines replaced by
spaces, with ellipsis markers on both ends.
-/
theorem C6_snippet_window (vault : List String) (f : MdFile)
    (hvis : visible vault f = true) (hio : f.ioOk = true)
    (hlen : f.content.data.length = 200)
    (hocc : firstOcc (lowerStr f.content).data (lowerStr "apple").data = some 100) :
    full_text_search vault [f] "apple" 20
      = [{ name := fileStem f
           path := pathStr f.relParts
           snippet := "..." ++ nlClean (String.mk ((f.content.data.drop 50).take 105)) ++ "..."
           modified := f.mtime }] := by
  have hmatch : containsSub (lowerStr f.content) (lowerStr "apple") = true :=
    firstOcc_some_subList hocc
  have hpred : (visible vault f && f.ioOk
      && containsSub (lowerStr f.content) (lowerStr "apple")) = true := by
    simp [hvis, hio, hmatch]
  have hsnip : snippetOf f.content "apple"
      = "..." ++ nlClean (String.mk ((f.content.data.drop 50).take 105)) ++ "..." := by
    simp only [snippetOf, hocc, Option.getD_some, sliceStr]
    rw [hlen, show ("apple" : String).data.length = 5 from by decide,
      show (100 : Nat) - 50 = 50 from rfl,
      show (100 + 5 + 50 : Nat) = 155 from rfl,
      show min (200 : Nat) 155 = 155 from rfl,
      show (155 : Nat) - 50 = 105 from rfl]
  simp only [full_text_search, scanLoop, hpred, if_true]
  norm_num [hsnip]

set_option maxRecDepth 8000 in
/--
C6 witness: the 200-character content of 100 z's, "apple", 95 q's; the
snippet is characters [50, 155).
-/
theorem C6_witness :
    full_text_search ["v"] [appleFile] "apple" 20
      = [{ name := fileStem appleFile
           path := pathStr appleFile.relParts
           snippet := "..."
             ++ nlClean (String.mk ((appleFile.content.data.drop 50).take 105)) ++ "..."
           modified := appleFile.mtime }] :=
  C6_snippet_window ["v"] appleFile (by decide) (by decide) (by decide) (by decide)

/--
C7: on a visible readable note with content
"Review #project and #프로젝트 today", the tag extraction yields exactly the
mapping `project` and `프로젝트`, each listing the note's display name —
the tag pattern accepts extended-Unicode (here Hangul) characters.
-/
theorem C7_tags (vault : List String) (f : MdFile)
    (hvis : visible vault f = true) (hio : f.ioOk = true)
    (hcontent : f.content = "Review #project and #프로젝트 today") :
    get_tags vault [f] = [("project", [fileStem f]), ("프로젝트", [fileStem f])] := by
  have hex : extractTags f.content = ["project", "프로젝트"] := by
    rw [hcontent]; decide
  simp only [get_tags, List.foldl_cons, List.foldl_nil, hvis, hio, Bool.and_self, if_true,
    hex]
  simp [addTag, show (("project" : String) == "프로젝트") = false from by decide]

/--
C7 witness: a concrete note `Review.md` with the two-tag content.
-/
theorem C7_witness :
    get_tags ["v"] [⟨["Review.md"], 1, 0, "Review #project and #프로젝트 today", true⟩]
      = [("project",
           [fileStem ⟨["Review.md"], 1, 0, "Review #project and #프로젝트 today", true⟩]),
         ("프로젝트",
           [fileStem ⟨["Review.md"], 1, 0, "Review #project and #프로젝트 today", true⟩])] :=
  C7_tags ["v"] ⟨["Review.md"], 1, 0, "Review #project and #프로젝트 today", true⟩
    (by decide) (by decide) (by decide)

/--
C8: dispatching any operation name outside the handled set produces an
error result naming the unknown operation (the dispatcher is a total
function — no fault escapes; errors are data).
-/
theorem C8_unknown_tool (w : World) (name : String) (args : Args)
    (h : ¬ name ∈ handledToolNames) :
    callTool w name args = Payload.error ("Unknown tool: " ++ name) := by
  simp only [handledToolNames, List.mem_cons, List.not_mem_nil, or_false, not_or] at h
  obtain ⟨h1, h2, h3, h4, h5, h6, h7, h8, h9, h10⟩ := h
  simp [callTool, beq_iff_eq, h1, h2, h3, h4, h5, h6, h7, h8, h9, h10]

/--
C8 witness: the name "frobnicate" with empty arguments.
-/
theorem C8_witness :
    ¬ "frobnicate" ∈ handledToolNames
    ∧ callTool ⟨["v"], true, [], [], []⟩ "frobnicate" {}
      = Payload.error ("Unknown tool: " ++ "frobnicate") :=
  ⟨by decide, C8_unknown_tool ⟨["v"], true, [], [], []⟩ "frobnicate" {} (by decide)⟩

/--
C9 counterexample: with `limit = 0` and one visible note, the empty query
returns ONE hit, not "the first 0 notes" — the cutoff is tested only
after a match is appended.
-/
theorem C9_counterexample :
    search_by_title ["v"] [⟨["note.md"], 5, 0, "", true⟩] "" 0
      = [{ name := "note", path := "note.md", modified := 5 }]
    ∧ [{ name := "note", path := "note.md", modified := 5 }] ≠ ([] : List TitleHit) := by
  decide

/--
C9 amended: for the empty query, every visible readable entry matches
(both by title and by content), so both searches return exactly the first
`max 1 limit` such entries in scan order (`limit` of them for `limit ≥ 1`;
one even when `limit = 0`), and the full-text snippet is taken from
content offset 0: the first 50 characters.
-/
theorem C9_empty_query (vault : List String) (files : List MdFile) (limit : Nat) :
    search_by_title vault files "" limit
      = ((files.filter (fun f => visible vault f && f.ioOk)).take (max 1 limit)).map
          (fun f => { name := fileStem f, path := pathStr f.relParts, modified := f.mtime })
    ∧ full_text_search vault files "" limit
      = ((files.filter (fun f => visible vault f && f.ioOk)).take (max 1 limit)).map
          (fun f =>
            { name := fileStem f
              path := pathStr f.relParts
              snippet := "..." ++ nlClean (String.mk (f.content.data.take 50)) ++ "..."
              modified := f.mtime }) := by
  constructor
  · have hpred : (fun f : MdFile =>
        visible vault f && containsSub (lowerStr (fileStem f)) (lowerStr "") && f.ioOk)
        = (fun f : MdFile => visible vault f && f.ioOk) := by
      funext f
      rw [show lowerStr "" = "" from rfl, containsSub_empty_pat, Bool.and_true]
    rw [search_by_title, hpred, scanLoop_eq_take]
  · have hpred : (fun f : MdFile =>
        visible vault f && f.ioOk && containsSub (lowerStr f.content) (lowerStr ""))
        = (fun f : MdFile => visible vault f && f.ioOk) := by
      funext f
      rw [show lowerStr "" = "" from rfl, containsSub_empty_pat, Bool.and_true]
    rw [full_text_search, hpred, scanLoop_eq_take]
    exact List.map_congr_left (fun f _ => by rw [snippetOf_empty])

/--
C10: the hidden filter is applied to full absolute paths, so a vault root
with a dot-prefixed component, or whose string contains ".obsidian" or
".trash" as a substring, makes EVERY entry hidden: listing, both
searches, folder listing and tags come back empty and the statistics
count zero notes and zero folders.
-/
theorem C10_bad_root (v : List String) (files : List MdFile)
    (dirs : List (List String)) (q : String) (limit : Nat)
    (hbad : v.any (fun s => strStartsWith s ".") = true
      ∨ containsSub (pathStr v) ".obsidian" = true
      ∨ containsSub (pathStr v) ".trash" = true) :
    (∀ rel, is_hidden_or_system (v ++ rel) = true)
    ∧ list_markdown_files v files limit = []
    ∧ search_by_title v files q limit = []
    ∧ full_text_search v files q limit = []
    ∧ list_folders v dirs = []
    ∧ get_tags v files = []
    ∧ get_vault_info v true files dirs = InfoResult.ok (pathStr v) 0 0 := by
  have hhid : ∀ rel, is_hidden_or_system (v ++ rel) = true :=
    fun rel => is_hidden_extend v rel hbad
  have hvisf : ∀ f : MdFile, visible v f = false := by
    intro f
    rw [visible, hhid f.relParts]
    rfl
  refine ⟨hhid, ?_, ?_, ?_, ?_, ?_, ?_⟩
  · rw [list_markdown_files, scanLoop_eq_nil _ _ _ (fun f _ => by rw [hvisf f]; rfl)]
    simp
  · rw [search_by_title, scanLoop_eq_nil _ _ _ (fun f _ => by rw [hvisf f]; rfl)]
    rfl
  · rw [full_text_search, scanLoop_eq_nil _ _ _ (fun f _ => by rw [hvisf f]; rfl)]
    rfl
  · rw [list_folders]
    rw [List.filter_eq_nil_iff.mpr (fun d _ => by simp [hhid d])]
    simp
  · exact get_tags_nil v files (fun f _ => hvisf f)
  · rw [get_vault_info]
    simp only [Bool.not_true, Bool.false_eq_true, if_false]
    rw [List.filter_eq_nil_iff.mpr (fun f _ => by simp [hhid f.relParts]),
      List.filter_eq_nil_iff.mpr (fun d _ => by simp [hhid d])]
    rfl

/--
C10 witness: a vault root containing the dot-prefixed component
".vaults"; with one note and one directory present, all operations come
back empty and the statistics count zero.
-/
theorem C10_witness :
    list_markdown_files ["home", ".vaults", "obsidian"]
        [⟨["daily.md"], 3, 10, "x #tag", true⟩] 5 = []
    ∧ search_by_title ["home", ".vaults", "obsidian"]
        [⟨["daily.md"], 3, 10, "x #tag", true⟩] "a" 5 = []
    ∧ full_text_search ["home", ".vaults", "obsidian"]
        [⟨["daily.md"], 3, 10, "x #tag", true⟩] "a" 5 = []
    ∧ list_folders ["home", ".vaults", "obsidian"] [["daily"]] = []
    ∧ get_tags ["home", ".vaults", "obsidian"] [⟨["daily.md"], 3, 10, "x #tag", true⟩] = []
    ∧ get_vault_info ["home", ".vaults", "obsidian"] true
        [⟨["daily.md"], 3, 10, "x #tag", true⟩] [["daily"]]
      = InfoResult.ok (pathStr ["home", ".vaults", "obsidian"]) 0 0 :=
  (C10_bad_root ["home", ".vaults", "obsidian"] [⟨["daily.md"], 3, 10, "x #tag", true⟩]
    [["daily"]] "a" 5 (by decide)).2

end ObsidianMcp
